import Mathlib

/-!
Shallow embedding of the 3GPP document downloader (src/mcp_server.py and
src/3gpp_downloader.py).  Strings are modelled as `List Char`; Python's
machine behaviour (slicing, `str.startswith`/`endswith`, `os.path.basename`,
`int(s, 36)`, `max(..., key=...)`) is embedded faithfully below, and the
pure cores of `parse_spec_number`, `rel_to_zip_suffix`,
`find_spec_zip_link`, `download_and_extract`, `list_available_specs` and the
MCP tool layer are translated from the source.
-/

namespace ThreeGPP

/-- ASCII lowercase map, as Python `str.lower` acts on ASCII characters. -/
def toLowerAscii (c : Char) : Char :=
  if 'A' ≤ c ∧ c ≤ 'Z' then Char.ofNat (c.toNat + 32) else c

/-- ASCII uppercase map, as Python `str.upper` acts on ASCII characters. -/
def toUpperAscii (c : Char) : Char :=
  if 'a' ≤ c ∧ c ≤ 'z' then Char.ofNat (c.toNat - 32) else c

def lowerStr (s : List Char) : List Char := s.map toLowerAscii

def upperStr (s : List Char) : List Char := s.map toUpperAscii

/-- Python startswith: `hasPfx l p` is `l.startswith(p)`. -/
def hasPfx : List Char → List Char → Bool
  | _, [] => true
  | [], _ :: _ => false
  | c :: l, p :: ps => c = p && hasPfx l ps

/-- Python endswith: `hasSfx l p` is `l.endswith(p)`. -/
def hasSfx (l p : List Char) : Bool := hasPfx l.reverse p.reverse

/-- Python `os.path.basename`: the part after the last `/`. -/
def basename (l : List Char) : List Char :=
  (l.reverse.takeWhile (fun c => ¬ (c = '/'))).reverse

/-- Python whitespace characters (`\s`, ASCII range). -/
def isWsChar (c : Char) : Bool :=
  c = ' ' ∨ c = Char.ofNat 9 ∨ c = Char.ofNat 10 ∨ c = Char.ofNat 13 ∨
    c = Char.ofNat 11 ∨ c = Char.ofNat 12

/-- Base-36 digit value of a character, as accepted by Python `int(·, 36)`:
decimal digits and latin letters of either case. -/
def digitVal36 (c : Char) : Option Nat :=
  if '0' ≤ c ∧ c ≤ '9' then some (c.toNat - 48)
  else if 'a' ≤ c ∧ c ≤ 'z' then some (c.toNat - 87)
  else if 'A' ≤ c ∧ c ≤ 'Z' then some (c.toNat - 55)
  else none

def isBase36 (c : Char) : Bool := (digitVal36 c).isSome

/-- Digits of a base-36 literal after the first one: Python allows a single
`_` between digits, and the literal must end with a digit.  `prevUnd` records
whether the previous character was a grouping underscore. -/
def parseRun36 (acc : Nat) (prevUnd : Bool) : List Char → Option Nat
  | [] => if prevUnd then none else some acc
  | c :: rest =>
    if c = '_' then
      if prevUnd then none else parseRun36 acc true rest
    else (digitVal36 c).bind (fun v => parseRun36 (acc * 36 + v) false rest)

/-- A non-empty run of base-36 digits with optional grouping underscores,
per Python's `int(·, 36)` digit grammar (the leading char must be a digit). -/
def parseDigits36 : List Char → Option Nat
  | [] => none
  | c :: rest => (digitVal36 c).bind (fun v => parseRun36 v false rest)

/-- Strip leading and trailing whitespace, as Python `int` does. -/
def stripWs (l : List Char) : List Char :=
  ((l.dropWhile isWsChar).reverse.dropWhile isWsChar).reverse

/-- Sign handling of Python `int(·, 36)` after whitespace stripping. -/
def pySigned : List Char → Option Int
  | [] => none
  | c :: rest =>
    if c = '+' then (parseDigits36 rest).map (fun n => (n : Int))
    else if c = '-' then (parseDigits36 rest).map (fun n => -(n : Int))
    else (parseDigits36 (c :: rest)).map (fun n => (n : Int))

/-- Python `int(s, 36)`: optional surrounding whitespace, optional sign,
then a non-empty underscore-grouped run of base-36 digits; `none` models
`ValueError`. -/
def pyInt36 (s : List Char) : Option Int := pySigned (stripWs s)

/-- Mathematical base-36 value of a digit string (spec side). -/
def base36val (l : List Char) : Nat :=
  l.foldl (fun a c => a * 36 + (digitVal36 c).getD 0) 0

/-! ## Python exceptions and shared pieces -/
/-- Exceptions the source can raise: `ValueError` from the two parsers,
HTTP errors from `raise_for_status`, `BadZipFile`, and OS errors. -/
inductive PyExc where
  | valueError (msg : List Char)
  | httpError (code : Nat)
  | badZip
  | ioError (msg : List Char)
deriving DecidableEq, Repr

def isDigitChar (c : Char) : Bool := decide ('0' ≤ c ∧ c ≤ '9')

/-- The release regex `re.match(r"Rel-(\d+)", rel, re.I)` followed by
`int(m.group(1))`:
a case-insensitive `Rel-` at the start, then a maximal non-empty digit run
(trailing text is allowed, since `re.match` only anchors the start). -/
def matchRelNum (s : List Char) : Option Nat :=
  if upperStr (s.take 4) = "REL-".data then
    let ds := (s.drop 4).takeWhile isDigitChar
    if ds = [] then none else some (ds.foldl (fun a c => a * 10 + (c.toNat - 48)) 0)
  else none

/-- The branch structure of `rel_to_zip_suffix` after the regex: digits `0-9`
keep their decimal character, `10-35` map to `a`-`z`, anything larger raises
`ValueError` (`f"{rel_num}00"` for `rel_num < 10` is the digit character of
`rel_num` followed by `"00"`). -/
def relSuffixOfNum (n : Nat) : Except PyExc (List Char) :=
  if n < 10 then .ok [Char.ofNat (48 + n), '0', '0']
  else if n < 36 then .ok [Char.ofNat (97 + n - 10), '0', '0']
  else .error (.valueError ("Unsupported release number".data))

/-- The function `rel_to_zip_suffix` from src/mcp_server.py lines 28-41 (identical in
src/3gpp_downloader.py lines 24-37). -/
def rel_to_zip_suffix (rel : List Char) : Except PyExc (List Char) :=
  match matchRelNum rel with
  | none => .error (.valueError "Invalid release format. Example: Rel-18".data)
  | some n => relSuffixOfNum n

/-! ## parse_spec_number -/
/-- Consume the mandatory category alternation `(TS|TR|GS|GR)` at the start
of the (already uppercased) input. -/
def expectCat : List Char → Option (List Char)
  | c1 :: c2 :: rest =>
    if [c1, c2] = "TS".data ∨ [c1, c2] = "TR".data ∨ [c1, c2] = "GS".data ∨
        [c1, c2] = "GR".data then some rest
    else none
  | _ => none

/-- Consume exactly `k` decimal digits. -/
def expectDigits (k : Nat) (l : List Char) : Option (List Char × List Char) :=
  if (l.take k).length = k ∧ (l.take k).all isDigitChar then some (l.take k, l.drop k)
  else none

/-- Consume one expected literal character. -/
def expectChar (c : Char) : List Char → Option (List Char)
  | d :: rest => if d = c then some rest else none
  | [] => none

/-- The optional trailing group `(?:-(\d+))?`: if the remaining text starts
with `-` followed by at least one digit, the maximal digit run is captured;
otherwise the group captures nothing. -/
def optPartNum (tail : List Char) : Option (List Char) :=
  match tail with
  | '-' :: t =>
    let ds := t.takeWhile isDigitChar
    if ds = [] then none else some ds
  | _ => none

/-- The spec regex `re.match(r"(TS|TR|GS|GR)\s*(\d{2})\.(\d{3})(?:-(\d+))?", u)`:
anchored at
the start only, so arbitrary trailing text is accepted. -/
def matchSpec (u : List Char) : Option (List Char × List Char × List Char) :=
  (expectCat u).bind fun r1 =>
    (expectDigits 2 (r1.dropWhile isWsChar)).bind fun p1 =>
      (expectChar '.' p1.2).bind fun r2 =>
        (expectDigits 3 r2).bind fun p2 =>
          some (p1.1, p2.1, (optPartNum p2.2).getD "1".data)

/-- The function `parse_spec_number` from src/mcp_server.py lines 20-25 (identical in
src/3gpp_downloader.py lines 16-21): uppercase the input, run the regex, and
return `(series, number, sub or "1")`; no match raises `ValueError`. -/
def parse_spec_number (spec : List Char) :
    Except PyExc (List Char × List Char × List Char) :=
  match matchSpec (upperStr spec) with
  | none => .error (.valueError "Invalid spec format. Example: TS 24.301, TR 38.101-1".data)
  | some r => .ok r

/-! ## find_spec_zip_link -/
def zipSfx : List Char := ".zip".data

/-- The filename prefix `f"{series}{number}-"` of the requested document. -/
def docPfx (series number : List Char) : List Char := series ++ number ++ ['-']

/-- The slice `filename[len(f"{series}{number}-"):-4]`: Python slicing drops the last
four characters, then everything before the document prefix's length. -/
def versionCode (series number filename : List Char) : List Char :=
  (filename.take (filename.length - 4)).drop (docPfx series number).length

/-- The document-pattern test of the candidate loop (lines 61-66 of
src/mcp_server.py): the href names a `.zip`, and its basename starts with
`{series}{number}-` and ends with `.zip`. -/
def isDocZip (series number href : List Char) : Bool :=
  hasSfx href zipSfx &&
    (hasPfx (basename href) (docPfx series number) && hasSfx (basename href) zipSfx)

/-- The document-pattern stage of the candidate scan (the spec's
`fetchCandidates`, before the release filter). -/
def fetchCandidates (series number : List Char) (hrefs : List (List Char)) :
    List (List Char) :=
  hrefs.filter (isDocZip series number)

/-- Full candidate test of the loop: document pattern plus
`version_code.startswith(rel_suffix[:1])`. -/
def isCandidate (series number relSfx href : List Char) : Bool :=
  isDocZip series number href &&
    hasPfx (versionCode series number (basename href)) (relSfx.take 1)

/-- The key function `extract_version` (lines 90-96): base-36 value of the version code,
`0` when `int(·, 36)` raises `ValueError`. -/
def extract_version (series number href : List Char) : Int :=
  (pyInt36 (versionCode series number (basename href))).getD 0

/-- The spec's `tokenOrderValue` applied directly to a version token. -/
def tokenOrderValue (tok : List Char) : Int := (pyInt36 tok).getD 0

/-- Python `max(candidates, key=f)`: scan left to right keeping the first
element whose key is strictly greater than the incumbent's. -/
def maxByFirst (f : List Char → Int) : List Char → List (List Char) → List Char
  | best, [] => best
  | best, x :: rest => if f best < f x then maxByFirst f x rest else maxByFirst f best rest

/-- Pure core of `find_spec_zip_link` (src/mcp_server.py lines 44-100,
identical logic in src/3gpp_downloader.py lines 40-98): filter the hrefs of
the fetched listing through the candidate test, return `None` when no
candidate remains, otherwise the candidate maximising `extract_version`
(ties keep the first occurrence, as Python `max` does).  The caller joins the
result against the listing URL; URL joining carries no selection logic and is
not modelled. -/
def find_spec_zip_link (series number relSfx : List Char)
    (hrefs : List (List Char)) : Option (List Char) :=
  match hrefs.filter (isCandidate series number relSfx) with
  | [] => none
  | c :: rest => some (maxByFirst (extract_version series number) c rest)

/-- A well-formed listing entry for the document: `{series}{number}-{tok}.zip`. -/
def mkHref (series number tok : List Char) : List Char :=
  docPfx series number ++ tok ++ zipSfx

/-! ## download_and_extract: the selective extraction -/
/-- The test `name.lower().endswith((".pdf", ".doc", ".docx"))`, the membership test of
the extraction loop (src/mcp_server.py lines 150-154, src/3gpp_downloader.py
lines 111-112). -/
def hasDocExtSfx (name : List Char) : Bool :=
  hasSfx (lowerStr name) ".pdf".data || hasSfx (lowerStr name) ".doc".data ||
    hasSfx (lowerStr name) ".docx".data

/-- The names extracted from an archive's name list. -/
def extractedNames (namelist : List (List Char)) : List (List Char) :=
  namelist.filter hasDocExtSfx

/-- Spec side: the extension of a filename, the part after the last dot. -/
def extAfterLastDot (name : List Char) : List Char :=
  (name.reverse.takeWhile (fun c => ¬ (c = '.'))).reverse

/-- Spec side: the extension, or `none` when the name has no dot. -/
def extOf (name : List Char) : Option (List Char) :=
  if '.' ∈ name then some (extAfterLastDot name) else none

/-! ## Filesystem model for extraction -/
/-- A zip entry: a name and its byte content. -/
def ZipEntry : Type := List Char × List Char

/-- A directory: a partial map from file names to contents. -/
def Dir : Type := List Char → Option (List Char)

/-- The call `z.extract(name, output_dir)`: (over)write one entry's file. -/
def extractEntry (d : Dir) (e : ZipEntry) : Dir :=
  Function.update d e.1 (some e.2)

/-- The extraction phase of `download_and_extract` (src/mcp_server.py lines
147-165): compute `file_list` by the extension filter over `namelist`, extract
each such entry into the output directory (overwriting silently), and return
the extracted names. -/
def download_and_extract (entries : List ZipEntry) (d : Dir) :
    List (List Char) × Dir :=
  ((entries.filter (fun e => hasDocExtSfx e.1)).map (fun e => e.1),
    (entries.filter (fun e => hasDocExtSfx e.1)).foldl extractEntry d)

/-! ## Version-code to release conversion in list_available_specs -/
/-- The conversion of src/mcp_server.py lines 334-339: parse the whole version
code in base 36; values below ten are the release number, otherwise the
release is `10 + version_num // 100 - 1`; a `ValueError` skips the file
(`none`).  The division only runs on values `≥ 10`, where Lean and Python
division agree. -/
def versionCodeToRelease (code : List Char) : Option Int :=
  match pyInt36 code with
  | none => none
  | some v => some (if v < 10 then v else 10 + v / 100 - 1)

/-! ## The MCP tool layer -/
/-- The record stored in `download_state` by `check_3gpp_link`
(src/mcp_server.py lines 197-205; `status` and `start_time` carry no
decision logic and are omitted). -/
structure DownloadInfo where
  spec : List Char
  release : List Char
  zipLink : List Char
  series : List Char
  number : List Char

/-- The module-level `download_state` dict (line 169). -/
abbrev Registry := List Char → Option DownloadInfo

/-- Outcome of an HTTP GET of the listing page: the hrefs of the parsed
document on success, or the exception raised by `requests.get` /
`raise_for_status`. -/
inductive FetchOutcome where
  | ok (hrefs : List (List Char))
  | fail (e : PyExc)

/-- The structured return messages of the three MCP tools.  Every tool body
is wrapped in `try/except Exception`, so the only outcomes are these
constructors — never a propagated exception. -/
inductive ToolMsg where
  | errorOccurred (e : PyExc)
  | linkNotFound (spec release : List Char)
  | linkFound (spec release zipLink downloadId : List Char)
  | invalidDownloadId (id : List Char)
  | downloadCompleted (spec release outputDir : List Char) (files : List (List Char))
  | specNotInArchive (spec : List Char)
  | specReleaseAvailable (spec release : List Char) (versions : List (List Char))
      (latest : List Char)
  | specReleaseNotAvailable (spec release : List Char) (available : List Int)
  | releasesOverview (spec : List Char) (entries : List (Int × List (List Char)))
  | noValidReleases (spec : List Char)
  | seriesOverview (rows : List (Nat × Nat))
  | couldNotRetrieveSeries

/-- The tool `check_3gpp_link` (src/mcp_server.py lines 172-216): parse the spec and
release, resolve the ZIP link, and on success register a download id built
from spec, release and the current time (the time string is an oracle
input).  Any raised exception is caught and reported as a message. -/
def check_3gpp_link (spec release : List Char) (fetch : FetchOutcome)
    (timeStr : List Char) (st : Registry) : ToolMsg × Registry :=
  match parse_spec_number spec with
  | .error e => (.errorOccurred e, st)
  | .ok (series, number, _) =>
    match rel_to_zip_suffix release with
    | .error e => (.errorOccurred e, st)
    | .ok relSfx =>
      match fetch with
      | .fail e => (.errorOccurred e, st)
      | .ok hrefs =>
        match find_spec_zip_link series number relSfx hrefs with
        | none => (.linkNotFound spec release, st)
        | some zipLink =>
          let dlId := spec ++ '_' :: release ++ '_' :: timeStr
          (.linkFound spec release zipLink dlId,
            Function.update st dlId (some ⟨spec, release, zipLink, series, number⟩))

/-- The tool `download_3gpp_document` (src/mcp_server.py lines 219-284): an unknown id
is reported as invalid; the size-probing GET, the downloading GET, writing
the archive and opening it can each raise (collapsed into the two `Except`
oracles), which is caught with the registry untouched; on success the
document files are extracted and the registry entry is deleted
(`del download_state[download_id]`). -/
def download_3gpp_document (dlId outputDir : List Char)
    (sizeFetch : Except PyExc Nat) (zipFetch : Except PyExc (List ZipEntry))
    (st : Registry) (d : Dir) : ToolMsg × Registry × Dir :=
  match st dlId with
  | none => (.invalidDownloadId dlId, st, d)
  | some info =>
    match sizeFetch with
    | .error e => (.errorOccurred e, st, d)
    | .ok _ =>
      match zipFetch with
      | .error e => (.errorOccurred e, st, d)
      | .ok entries =>
        let res := download_and_extract entries d
        (.downloadCompleted info.spec info.release outputDir res.1,
          Function.update st dlId none, res.2)

/-- Append a version code under its release key, keeping dict insertion
order, as the `releases` dict of `list_available_specs` does. -/
def addRelease (acc : List (Int × List (List Char))) (rn : Int) (code : List Char) :
    List (Int × List (List Char)) :=
  if acc.any (fun p => p.1 = rn) then
    acc.map (fun p => if p.1 = rn then (p.1, p.2 ++ [code]) else p)
  else acc ++ [(rn, [code])]

/-- The `releases` dict built by lines 326-345 of src/mcp_server.py: for each
listed `.zip` matching the document pattern, convert its version code; files
whose code fails base-36 parsing are skipped. -/
def collectReleases (series number : List Char) (zipFiles : List (List Char)) :
    List (Int × List (List Char)) :=
  zipFiles.foldl (fun acc zf =>
    let filename := basename zf
    if hasPfx filename (docPfx series number) && hasSfx filename zipSfx then
      match versionCodeToRelease (versionCode series number filename) with
      | none => acc
      | some rn => addRelease acc rn (versionCode series number filename)
    else acc) []

/-- Decimal rendering of the release number used in the `f"Rel-{n}"` keys. -/
def intDecStr (i : Int) : List Char :=
  if i < 0 then '-' :: Nat.toDigits 10 i.natAbs else Nat.toDigits 10 i.toNat

/-- The dict key `f"Rel-{release_num}"`. -/
def relKey (i : Int) : List Char := "Rel-".data ++ intDecStr i

/-- The directory regex `re.match(r"\d+\.\d+", s)`: digits, a dot, digits,
anchored at the start
only. -/
def matchesSpecDir (s : List Char) : Bool :=
  let d1 := s.takeWhile isDigitChar
  let rest := s.drop d1.length
  !d1.isEmpty && hasPfx rest ['.'] && !((rest.drop 1).takeWhile isDigitChar).isEmpty

/-- Python `s.rstrip("/")`. -/
def rstripSlash (s : List Char) : List Char :=
  (s.reverse.dropWhile (fun c => c = '/')).reverse

/-- The series-enumeration loop of `list_available_specs` (lines 390-420):
per-series fetch failures are skipped by the inner `try/except ... continue`;
a series contributes a row when it lists at least one spec directory. -/
def seriesRows (seriesFetches : List (Nat × FetchOutcome)) : List (Nat × Nat) :=
  seriesFetches.foldl (fun acc p =>
    match p.2 with
    | .fail _ => acc
    | .ok hrefs =>
      let specs := hrefs.filter (fun h =>
        hasSfx h ['/'] && !(decide (h = "../".data)) && matchesSpecDir (rstripSlash h))
      if specs.isEmpty then acc else acc ++ [(p.1, specs.length)]) []

/-- The tool `list_available_specs` (src/mcp_server.py lines 287-434).  With a spec:
fetch that document's listing, group its `.zip` files by release, and answer
about one release or all of them.  Without a spec: probe each series listing
(lines 390-420; per-series failures are skipped by the inner
`try/except ... continue`) and summarise how many spec directories each has.
Sorting of the version lists (stable, by base-36 value) uses a stable merge
sort as Python's `list.sort` does. -/
def list_available_specs (spec release : List Char) (fetch : FetchOutcome)
    (seriesFetches : List (Nat × FetchOutcome)) : ToolMsg :=
  if spec = [] then
    let rows := seriesRows seriesFetches
    if rows.isEmpty then .couldNotRetrieveSeries else .seriesOverview rows
  else
    match parse_spec_number spec with
    | .error e => .errorOccurred e
    | .ok (series, number, _) =>
      match fetch with
      | .fail e => .errorOccurred e
      | .ok hrefs =>
        let zipFiles := hrefs.filter (fun h => hasSfx h zipSfx)
        if zipFiles.isEmpty then .specNotInArchive spec
        else
          let releases := collectReleases series number zipFiles
          if release = [] then
            if releases.isEmpty then .noValidReleases spec
            else .releasesOverview spec releases
          else
            match releases.find? (fun p => decide (relKey p.1 = release)) with
            | some p =>
              let versions := p.2.mergeSort (fun a b => tokenOrderValue a ≤ tokenOrderValue b)
              .specReleaseAvailable spec release versions (versions.getLastD [])
            | none => .specReleaseNotAvailable spec release (releases.map (fun p => p.1))

/-- Spec side for C4: a filename exactly of the form
`{series}{number}-{3-character token}.zip`. -/
def matchesDocPattern3 (series number fname : List Char) : Bool :=
  hasPfx fname (docPfx series number) && hasSfx fname zipSfx &&
    decide (fname.length = (docPfx series number).length + 3 + 4)

/-- Spec side for C6, following the claim's words: an optional category token
from the fixed set, whitespace-tolerant, a 2-digit series, the literal `.`
separator, a 3-digit document number, an optional dash-suffixed part number,
matched case-insensitively against the whole string. -/
def specShapeTail (l : List Char) : Bool :=
  match expectDigits 2 l with
  | none => false
  | some p1 =>
    match expectChar '.' p1.2 with
    | none => false
    | some r2 =>
      match expectDigits 3 r2 with
      | none => false
      | some p2 =>
        match p2.2 with
        | [] => true
        | '-' :: t => !t.isEmpty && t.all isDigitChar
        | _ => false

/-- Spec side for C6 (whole-string match, optional category). -/
def specShapeFull (s : List Char) : Bool :=
  let u := upperStr s
  specShapeTail (u.dropWhile isWsChar) ||
    (match expectCat u with
     | some rest => specShapeTail (rest.dropWhile isWsChar)
     | none => false)

/-- A concrete registry entry for exercising the download path. -/
def infoEx : DownloadInfo :=
  ⟨"TS 38.331".data, "Rel-18".data, "38331-i60.zip".data, "38".data, "331".data⟩

/-- A concrete registry holding exactly the entry `id1`. -/
def stEx : Registry := fun x => if x = "id1".data then some infoEx else none

/-! ## Theorems -/

theorem hasPfx_iff (l p : List Char) : hasPfx l p = true ↔ ∃ r, l = p ++ r := by
  induction p generalizing l with
  | nil => simp [hasPfx]
  | cons q qs ih =>
    cases l with
    | nil => simp [hasPfx]
    | cons c cs =>
      simp only [hasPfx, Bool.and_eq_true, decide_eq_true_eq, ih, List.cons_append,
        List.cons.injEq]
      constructor
      · rintro ⟨rfl, r, rfl⟩; exact ⟨r, rfl, rfl⟩
      · rintro ⟨r, rfl, rfl⟩; exact ⟨rfl, r, rfl⟩

theorem hasPfx_append (p r : List Char) : hasPfx (p ++ r) p = true :=
  (hasPfx_iff _ _).2 ⟨r, rfl⟩

theorem hasSfx_iff (l p : List Char) : hasSfx l p = true ↔ ∃ r, l = r ++ p := by
  rw [hasSfx, hasPfx_iff]
  constructor
  · rintro ⟨r, h⟩
    refine ⟨r.reverse, ?_⟩
    have := congrArg List.reverse h
    simpa using this
  · rintro ⟨r, rfl⟩
    exact ⟨r.reverse, by simp⟩

theorem hasSfx_append (r p : List Char) : hasSfx (r ++ p) p = true :=
  (hasSfx_iff _ _).2 ⟨r, rfl⟩

theorem basename_of_no_slash (l : List Char) (h : '/' ∉ l) : basename l = l := by
  have : l.reverse.takeWhile (fun c => ¬ (c = '/')) = l.reverse := by
    apply List.takeWhile_eq_self_iff.mpr
    intro x hx
    have : x ∈ l := by simpa using (List.mem_reverse.1 hx)
    simp only [decide_eq_true_eq]
    intro hxe
    exact h (hxe ▸ this)
  unfold basename
  rw [this, List.reverse_reverse]

theorem parseRun36_nil (acc : Nat) (b : Bool) :
    parseRun36 acc b [] = if b then none else some acc := rfl

theorem parseRun36_cons (acc : Nat) (b : Bool) (c : Char) (rest : List Char) :
    parseRun36 acc b (c :: rest) =
      if c = '_' then
        if b then none else parseRun36 acc true rest
      else (digitVal36 c).bind (fun v => parseRun36 (acc * 36 + v) false rest) := rfl

theorem parseDigits36_cons (c : Char) (rest : List Char) :
    parseDigits36 (c :: rest) = (digitVal36 c).bind (fun v => parseRun36 v false rest) := rfl

theorem pySigned_cons (c : Char) (rest : List Char) :
    pySigned (c :: rest) =
      if c = '+' then (parseDigits36 rest).map (fun n => (n : Int))
      else if c = '-' then (parseDigits36 rest).map (fun n => -(n : Int))
      else (parseDigits36 (c :: rest)).map (fun n => (n : Int)) := rfl

theorem isBase36_ne_underscore {c : Char} (h : isBase36 c = true) : ¬ (c = '_') := by
  intro hc
  subst hc
  exact absurd h (by decide)

theorem isWsChar_eq_false_of_base36 {c : Char} (h : isBase36 c = true) :
    isWsChar c = false := by
  cases hw : isWsChar c with
  | false => rfl
  | true =>
    exfalso
    simp only [isWsChar, Bool.decide_or, Bool.or_eq_true, decide_eq_true_eq] at hw
    rcases hw with h1 | h1 | h1 | h1 | h1 | h1 <;> subst h1 <;> exact absurd h (by decide)

theorem parseRun36_all_base36 (l : List Char) :
    ∀ acc : Nat, (∀ c ∈ l, isBase36 c = true) →
      parseRun36 acc false l =
        some (l.foldl (fun a c => a * 36 + (digitVal36 c).getD 0) acc) := by
  induction l with
  | nil => intro acc _; rfl
  | cons c rest ih =>
    intro acc hall
    have hc : isBase36 c = true := hall c (by simp)
    have hne : ¬ (c = '_') := isBase36_ne_underscore hc
    obtain ⟨v, hv⟩ := Option.isSome_iff_exists.1 hc
    rw [parseRun36_cons, if_neg hne, hv, Option.some_bind]
    simp only [List.foldl_cons, hv, Option.getD_some]
    exact ih (acc * 36 + v) (fun d hd => hall d (by simp [hd]))

theorem parseDigits36_all_base36 (l : List Char) (hne : l ≠ [])
    (hall : ∀ c ∈ l, isBase36 c = true) : parseDigits36 l = some (base36val l) := by
  cases l with
  | nil => exact absurd rfl hne
  | cons c rest =>
    have hc : isBase36 c = true := hall c (by simp)
    obtain ⟨v, hv⟩ := Option.isSome_iff_exists.1 hc
    rw [parseDigits36_cons, hv, Option.some_bind,
      parseRun36_all_base36 rest v (fun d hd => hall d (by simp [hd]))]
    simp [base36val, hv]

theorem dropWhile_eq_self_of_all {p : Char → Bool} (l : List Char)
    (h : ∀ c ∈ l, p c = false) : l.dropWhile p = l := by
  cases l with
  | nil => rfl
  | cons c rest =>
    rw [List.dropWhile_cons, if_neg]
    simp [h c (by simp)]

theorem stripWs_eq_self (l : List Char) (h : ∀ c ∈ l, isWsChar c = false) :
    stripWs l = l := by
  unfold stripWs
  rw [dropWhile_eq_self_of_all l h,
    dropWhile_eq_self_of_all l.reverse (fun c hc => h c (List.mem_reverse.1 hc)),
    List.reverse_reverse]

theorem pyInt36_all_base36 (l : List Char) (hne : l ≠ [])
    (hall : ∀ c ∈ l, isBase36 c = true) : pyInt36 l = some (base36val l : Int) := by
  have hstrip : stripWs l = l :=
    stripWs_eq_self l (fun c hc => isWsChar_eq_false_of_base36 (hall c hc))
  cases hl : l with
  | nil => exact absurd hl hne
  | cons c rest =>
    have hc : isBase36 c = true := hall c (by simp [hl])
    have hplus : ¬ (c = '+') := by
      intro h; subst h; exact absurd hc (by decide)
    have hminus : ¬ (c = '-') := by
      intro h; subst h; exact absurd hc (by decide)
    have hstrip2 : stripWs (c :: rest) = c :: rest := by rw [← hl]; exact hstrip
    rw [pyInt36, hstrip2, pySigned_cons, if_neg hplus, if_neg hminus,
      parseDigits36_all_base36 (c :: rest) (by simp) (fun d hd => hall d (hl ▸ hd))]
    simp

theorem parseRun36_some_chars {l : List Char} :
    ∀ {acc n : Nat} {b : Bool}, parseRun36 acc b l = some n →
      ∀ c ∈ l, c = '_' ∨ isBase36 c = true := by
  induction l with
  | nil => intro _ _ _ _ c hc; simp at hc
  | cons c rest ih =>
    intro acc n b h d hd
    rw [parseRun36_cons] at h
    rcases List.mem_cons.1 hd with hdc | hdm
    · subst hdc
      by_cases hcu : d = '_'
      · exact Or.inl hcu
      · rw [if_neg hcu] at h
        cases hc : digitVal36 d with
        | none => rw [hc] at h; simp at h
        | some v => exact Or.inr (by simp [isBase36, hc])
    · by_cases hcu : c = '_'
      · rw [if_pos hcu] at h
        cases b with
        | true => simp at h
        | false => exact ih h d hdm
      · rw [if_neg hcu] at h
        cases hc : digitVal36 c with
        | none => rw [hc] at h; simp at h
        | some v =>
          rw [hc, Option.some_bind] at h
          exact ih h d hdm

theorem parseDigits36_some_chars {l : List Char} {n : Nat}
    (h : parseDigits36 l = some n) : ∀ c ∈ l, c = '_' ∨ isBase36 c = true := by
  cases l with
  | nil => intro c hc; simp at hc
  | cons c rest =>
    rw [parseDigits36_cons] at h
    cases hc : digitVal36 c with
    | none => rw [hc] at h; simp at h
    | some v =>
      rw [hc, Option.some_bind] at h
      intro d hd
      rcases List.mem_cons.1 hd with hdc | hdm
      · exact Or.inr (by subst hdc; simp [isBase36, hc])
      · exact parseRun36_some_chars h d hdm

theorem mem_dropWhile_of_not {p : Char → Bool} {c : Char} {l : List Char}
    (hc : c ∈ l) (hp : p c = false) : c ∈ l.dropWhile p := by
  induction l with
  | nil => simp at hc
  | cons x xs ih =>
    rw [List.dropWhile_cons]
    by_cases hx : p x = true
    · rw [if_pos hx]
      rcases List.mem_cons.1 hc with hcx | hcm
      · exact absurd hx (by simp [hcx ▸ hp])
      · exact ih hcm
    · rw [if_neg hx]
      exact hc

theorem mem_stripWs {c : Char} {l : List Char} (hc : c ∈ l)
    (hw : isWsChar c = false) : c ∈ stripWs l := by
  unfold stripWs
  rw [List.mem_reverse]
  refine mem_dropWhile_of_not ?_ hw
  rw [List.mem_reverse]
  exact mem_dropWhile_of_not hc hw

theorem pyInt36_some_chars {s : List Char} {n : Int} (h : pyInt36 s = some n) :
    ∀ c ∈ s, isWsChar c = true ∨ c = '+' ∨ c = '-' ∨ c = '_' ∨ isBase36 c = true := by
  intro c hc
  by_cases hw : isWsChar c = true
  · exact Or.inl hw
  · right
    have hmem : c ∈ stripWs s := mem_stripWs hc (by simpa using hw)
    rw [pyInt36] at h
    cases hst : stripWs s with
    | nil => rw [hst] at h; exact absurd h (by simp [pySigned])
    | cons c0 rest =>
      rw [hst] at h hmem
      rw [pySigned_cons] at h
      by_cases h0 : c0 = '+'
      · rw [if_pos h0] at h
        cases hpd : parseDigits36 rest with
        | none => rw [hpd] at h; simp at h
        | some m =>
          rcases List.mem_cons.1 hmem with hmem | hmem
          · exact Or.inl (hmem ▸ h0)
          · rcases parseDigits36_some_chars hpd c hmem with h1 | h1
            · exact Or.inr (Or.inr (Or.inl h1))
            · exact Or.inr (Or.inr (Or.inr h1))
      · rw [if_neg h0] at h
        by_cases h1 : c0 = '-'
        · rw [if_pos h1] at h
          cases hpd : parseDigits36 rest with
          | none => rw [hpd] at h; simp at h
          | some m =>
            rcases List.mem_cons.1 hmem with hmem | hmem
            · exact Or.inr (Or.inl (hmem ▸ h1))
            · rcases parseDigits36_some_chars hpd c hmem with h2 | h2
              · exact Or.inr (Or.inr (Or.inl h2))
              · exact Or.inr (Or.inr (Or.inr h2))
        · rw [if_neg h1] at h
          cases hpd : parseDigits36 (c0 :: rest) with
          | none => rw [hpd] at h; simp at h
          | some m =>
            rcases parseDigits36_some_chars hpd c hmem with h2 | h2
            · exact Or.inr (Or.inr (Or.inl h2))
            · exact Or.inr (Or.inr (Or.inr h2))

-- sanity checks of the Python int model
example : pyInt36 "i60".data = some 23544 := by decide

example : pyInt36 "-11".data = some (-37) := by decide

example : pyInt36 "1_1".data = some 37 := by decide

example : pyInt36 " 11 ".data = some 37 := by decide

example : pyInt36 "_11".data = none := by decide

example : pyInt36 "11_".data = none := by decide

example : pyInt36 "1__1".data = none := by decide

example : pyInt36 "+".data = none := by decide

example : pyInt36 "".data = none := by decide

example : pyInt36 "+12".data = some 38 := by decide

example : rel_to_zip_suffix "Rel-8".data = .ok "800".data := rfl

example : rel_to_zip_suffix "Rel-18".data = .ok "i00".data := rfl

example : rel_to_zip_suffix "rel-16".data = .ok "g00".data := rfl

example : rel_to_zip_suffix "Rel-40".data =
    .error (.valueError ("Unsupported release number".data)) := rfl

example : rel_to_zip_suffix "Release-18".data =
    .error (.valueError "Invalid release format. Example: Rel-18".data) := rfl

example : parse_spec_number "TS 24.301".data = .ok ("24".data, "301".data, "1".data) := rfl

example : parse_spec_number "TR 38.101-1".data = .ok ("38".data, "101".data, "1".data) := rfl

example : parse_spec_number "ts24.301".data = .ok ("24".data, "301".data, "1".data) := rfl

example : parse_spec_number "TS 24.301 trailing garbage".data =
    .ok ("24".data, "301".data, "1".data) := rfl

example : parse_spec_number "24.301".data =
    .error (.valueError "Invalid spec format. Example: TS 24.301, TR 38.101-1".data) := rfl

example : parse_spec_number "TS 4.301".data =
    .error (.valueError "Invalid spec format. Example: TS 24.301, TR 38.101-1".data) := rfl

theorem maxByFirst_nil (f : List Char → Int) (best : List Char) :
    maxByFirst f best [] = best := rfl

theorem maxByFirst_cons (f : List Char → Int) (best x : List Char) (rest : List (List Char)) :
    maxByFirst f best (x :: rest) =
      if f best < f x then maxByFirst f x rest else maxByFirst f best rest := rfl

example :
    find_spec_zip_link "24".data "301".data "i00".data
      ["24301-i00.zip".data, "24301-i60.zip".data, "24301-j00.zip".data] =
      some "24301-i60.zip".data := rfl

example :
    find_spec_zip_link "24".data "301".data "f00".data
      ["24301-f40.zip".data, "24301-g20.zip".data, "24302-f10.zip".data] =
      some "24301-f40.zip".data := rfl

example :
    find_spec_zip_link "24".data "301".data "z00".data
      ["24301-i00.zip".data, "24301-i60.zip".data] = none := rfl

example :
    fetchCandidates "24".data "301".data
      ["24301-f40.zip".data, "24301-g20.zip".data, "24302-f10.zip".data] =
      ["24301-f40.zip".data, "24301-g20.zip".data] := rfl

/-- Python `max` keeps the first maximal element: the scan result splits the
input as `l1 ++ result :: l2` with everything in `l1` strictly below the
result and everything in `l2` at most the result. -/
theorem maxByFirst_split (f : List Char → Int) :
    ∀ (l : List (List Char)) (c : List Char),
      ∃ l1 l2, c :: l = l1 ++ maxByFirst f c l :: l2 ∧
        (∀ x ∈ l1, f x < f (maxByFirst f c l)) ∧
        (∀ x ∈ l2, f x ≤ f (maxByFirst f c l)) := by
  intro l
  induction l with
  | nil =>
    intro c
    exact ⟨[], [], rfl, by simp, by simp⟩
  | cons x rest ih =>
    intro c
    rw [maxByFirst_cons]
    by_cases h : f c < f x
    · rw [if_pos h]
      obtain ⟨l1, l2, hdec, h1, h2⟩ := ih x
      have hxle : f x ≤ f (maxByFirst f x rest) := by
        have hxmem : x ∈ l1 ++ maxByFirst f x rest :: l2 := by
          rw [← hdec]; simp
        rcases List.mem_append.1 hxmem with hm | hm
        · exact le_of_lt (h1 x hm)
        · rcases List.mem_cons.1 hm with hm | hm
          · exact le_of_eq (congrArg f hm)
          · exact h2 x hm
      refine ⟨c :: l1, l2, ?_, ?_, h2⟩
      · rw [List.cons_append, ← hdec]
      · intro y hy
        rcases List.mem_cons.1 hy with rfl | hy
        · exact lt_of_lt_of_le h hxle
        · exact h1 y hy
    · rw [if_neg h]
      have hxc : f x ≤ f c := le_of_not_lt h
      obtain ⟨l1, l2, hdec, h1, h2⟩ := ih c
      cases l1 with
      | nil =>
        simp only [List.nil_append] at hdec
        obtain ⟨hc, hrest⟩ := List.cons.inj hdec
        refine ⟨[], x :: l2, ?_, by simp, ?_⟩
        · rw [List.nil_append, ← hc, hrest]
        · intro y hy
          rcases List.mem_cons.1 hy with rfl | hy
          · rw [← hc]; exact hxc
          · exact h2 y hy
      | cons a l1' =>
        simp only [List.cons_append] at hdec
        obtain ⟨ha, hrest⟩ := List.cons.inj hdec
        have hcr : f c < f (maxByFirst f c rest) := by
          have := h1 a (by simp)
          rwa [← ha] at this
        refine ⟨c :: x :: l1', l2, ?_, ?_, h2⟩
        · rw [List.cons_append, List.cons_append]
          nth_rewrite 1 [hrest]
          rfl
        · intro y hy
          rcases List.mem_cons.1 hy with rfl | hy
          · exact hcr
          · rcases List.mem_cons.1 hy with rfl | hy
            · exact lt_of_le_of_lt hxc hcr
            · exact h1 y (by simp [hy])

theorem maxByFirst_mem (f : List Char → Int) (l : List (List Char)) (c : List Char) :
    maxByFirst f c l ∈ c :: l := by
  obtain ⟨l1, l2, hdec, _, _⟩ := maxByFirst_split f l c
  rw [hdec]
  simp

theorem maxByFirst_le (f : List Char → Int) (l : List (List Char)) (c : List Char) :
    ∀ y ∈ c :: l, f y ≤ f (maxByFirst f c l) := by
  obtain ⟨l1, l2, hdec, h1, h2⟩ := maxByFirst_split f l c
  intro y hy
  rw [hdec] at hy
  rcases List.mem_append.1 hy with hm | hm
  · exact le_of_lt (h1 y hm)
  · rcases List.mem_cons.1 hm with rfl | hm
    · exact le_refl _
    · exact h2 y hm

theorem mkHref_no_slash {series number tok : List Char} (hs : '/' ∉ series)
    (hn : '/' ∉ number) (ht : '/' ∉ tok) : '/' ∉ mkHref series number tok := by
  intro hmem
  simp only [mkHref, docPfx, List.append_assoc, List.mem_append] at hmem
  rcases hmem with h | h | h | h | h
  · exact hs h
  · exact hn h
  · simp at h
  · exact ht h
  · revert h; decide

theorem basename_mkHref {series number tok : List Char} (hs : '/' ∉ series)
    (hn : '/' ∉ number) (ht : '/' ∉ tok) :
    basename (mkHref series number tok) = mkHref series number tok :=
  basename_of_no_slash _ (mkHref_no_slash hs hn ht)

theorem versionCode_mkHref (series number tok : List Char) :
    versionCode series number (mkHref series number tok) = tok := by
  unfold versionCode mkHref
  rw [List.append_assoc, ← List.append_assoc]
  have hlen : ((docPfx series number ++ tok) ++ zipSfx).length - 4 =
      (docPfx series number ++ tok).length := by
    rw [List.length_append]
    rfl
  rw [hlen, List.take_left, List.drop_left]

theorem isDocZip_mkHref {series number tok : List Char} (hs : '/' ∉ series)
    (hn : '/' ∉ number) (ht : '/' ∉ tok) :
    isDocZip series number (mkHref series number tok) = true := by
  unfold isDocZip
  rw [basename_mkHref hs hn ht]
  have h1 : hasSfx (mkHref series number tok) zipSfx = true := by
    unfold mkHref
    rw [List.append_assoc, ← List.append_assoc]
    exact hasSfx_append _ _
  have h2 : hasPfx (mkHref series number tok) (docPfx series number) = true := by
    unfold mkHref
    rw [List.append_assoc]
    exact hasPfx_append _ _
  rw [h1, h2]
  rfl

theorem isCandidate_mkHref {series number tok : List Char} (hs : '/' ∉ series)
    (hn : '/' ∉ number) (ht : '/' ∉ tok) (pfxC : Char) (rs : List Char) :
    isCandidate series number (pfxC :: rs) (mkHref series number tok) =
      hasPfx tok [pfxC] := by
  unfold isCandidate
  rw [isDocZip_mkHref hs hn ht, basename_mkHref hs hn ht, versionCode_mkHref]
  rw [Bool.true_and]
  rfl

theorem extract_version_mkHref {series number tok : List Char} (hs : '/' ∉ series)
    (hn : '/' ∉ number) (ht : '/' ∉ tok) :
    extract_version series number (mkHref series number tok) = tokenOrderValue tok := by
  unfold extract_version tokenOrderValue
  rw [basename_mkHref hs hn ht, versionCode_mkHref]

theorem maxByFirst_congr (f f' : List Char → Int) :
    ∀ (l : List (List Char)) (c : List Char), (∀ x ∈ c :: l, f x = f' x) →
      maxByFirst f c l = maxByFirst f' c l := by
  intro l
  induction l with
  | nil => intro c _; rfl
  | cons x rest ih =>
    intro c hall
    rw [maxByFirst_cons, maxByFirst_cons, hall c (by simp), hall x (by simp)]
    by_cases h : f' c < f' x
    · simp only [if_pos h]
      refine ih x (fun y hy => hall y ?_)
      rcases List.mem_cons.1 hy with rfl | hy
      · simp
      · simp [hy]
    · simp only [if_neg h]
      refine ih c (fun y hy => hall y ?_)
      rcases List.mem_cons.1 hy with rfl | hy
      · simp
      · simp [hy]

/-- The scan `maxByFirst` commutes with mapping a constructor over the inputs. -/
theorem maxByFirst_map (f : List Char → Int) (g : List Char → List Char) :
    ∀ (l : List (List Char)) (c : List Char),
      maxByFirst f (g c) (l.map g) = g (maxByFirst (fun t => f (g t)) c l) := by
  intro l
  induction l with
  | nil => intro c; rfl
  | cons x rest ih =>
    intro c
    rw [List.map_cons, maxByFirst_cons, maxByFirst_cons]
    by_cases h : f (g c) < f (g x)
    · rw [if_pos h, if_pos h, ih]
    · rw [if_neg h, if_neg h, ih]

theorem takeWhile_append_cons {q : Char → Bool} (a : List Char) (c : Char)
    (b : List Char) (ha : ∀ x ∈ a, q x = true) (hc : q c = false) :
    (a ++ c :: b).takeWhile q = a := by
  induction a with
  | nil => simp [List.takeWhile_cons, hc]
  | cons y ys ih =>
    rw [List.cons_append, List.takeWhile_cons, ha y (by simp),
      ih (fun x hx => ha x (by simp [hx]))]
    simp

theorem dropWhile_head_false {q : Char → Bool} {l tl : List Char} {d : Char}
    (h : l.dropWhile q = d :: tl) : q d = false := by
  induction l with
  | nil => simp at h
  | cons y ys ih =>
    rw [List.dropWhile_cons] at h
    by_cases hy : q y = true
    · rw [if_pos hy] at h
      exact ih h
    · rw [if_neg hy] at h
      obtain ⟨h1, _⟩ := List.cons.inj h
      rw [← h1]
      simpa using hy

/-- A filename ends with `"." ++ p` (for a dot-free, non-empty `p`) exactly
when it contains a dot and its after-last-dot extension is `p`. -/
theorem hasSfx_dot_iff_ext (s p : List Char) (hp : '.' ∉ p) :
    hasSfx s ('.' :: p) = true ↔ '.' ∈ s ∧ extAfterLastDot s = p := by
  constructor
  · intro h
    obtain ⟨r, rfl⟩ := (hasSfx_iff _ _).1 h
    constructor
    · simp
    · unfold extAfterLastDot
      rw [List.reverse_append, List.reverse_cons, List.append_assoc,
        List.singleton_append]
      rw [takeWhile_append_cons p.reverse '.' _ ?_ (by simp)]
      · simp
      · intro x hx
        have : x ∈ p := List.mem_reverse.1 hx
        simp only [decide_eq_true_eq]
        intro hxe
        exact hp (hxe ▸ this)
  · rintro ⟨hdot, hext⟩
    have htw : s.reverse.takeWhile (fun c => ¬ (c = '.')) = p.reverse := by
      have := congrArg List.reverse hext
      simpa [extAfterLastDot] using this
    cases hdw : s.reverse.dropWhile (fun c => ¬ (c = '.')) with
    | nil =>
      exfalso
      have hsr : s.reverse.takeWhile (fun c => ¬ (c = '.')) = s.reverse := by
        have := List.takeWhile_append_dropWhile
          (p := fun c : Char => ¬ (c = '.')) (l := s.reverse)
        rw [hdw, List.append_nil] at this
        exact this
      have hall := List.takeWhile_eq_self_iff.mp hsr
      have : ('.' : Char) ∈ s.reverse := List.mem_reverse.2 hdot
      have := hall '.' this
      simp at this
    | cons e tl =>
      have he : e = '.' := by
        have := dropWhile_head_false hdw
        simpa using this
      have hs : s.reverse = p.reverse ++ '.' :: tl := by
        have := List.takeWhile_append_dropWhile
          (p := fun c : Char => ¬ (c = '.')) (l := s.reverse)
        rw [hdw, htw, he] at this
        exact this.symm
      have hsv : s = tl.reverse ++ '.' :: p := by
        have := congrArg List.reverse hs
        simpa [List.reverse_append] using this
      rw [hsv]
      exact hasSfx_append _ _

/-- The filter `hasDocExtSfx` agrees with the spec-side extension test. -/
theorem hasDocExtSfx_iff_extOf (name : List Char) :
    hasDocExtSfx name = true ↔
      (extOf (lowerStr name) = some "pdf".data ∨ extOf (lowerStr name) = some "doc".data ∨
        extOf (lowerStr name) = some "docx".data) := by
  have hpdf := hasSfx_dot_iff_ext (lowerStr name) "pdf".data (by decide)
  have hdoc := hasSfx_dot_iff_ext (lowerStr name) "doc".data (by decide)
  have hdocx := hasSfx_dot_iff_ext (lowerStr name) "docx".data (by decide)
  unfold hasDocExtSfx extOf
  constructor
  · intro h
    rcases Bool.or_eq_true_iff.1 h with h | h
    · rcases Bool.or_eq_true_iff.1 h with h | h
      · obtain ⟨hdot, hext⟩ := hpdf.1 h
        exact Or.inl (by rw [if_pos hdot, hext])
      · obtain ⟨hdot, hext⟩ := hdoc.1 h
        exact Or.inr (Or.inl (by rw [if_pos hdot, hext]))
    · obtain ⟨hdot, hext⟩ := hdocx.1 h
      exact Or.inr (Or.inr (by rw [if_pos hdot, hext]))
  · intro h
    rcases h with h | h | h
    · by_cases hdot : '.' ∈ lowerStr name
      · rw [if_pos hdot] at h
        have := hpdf.2 ⟨hdot, Option.some.inj h⟩
        rw [this]
        rfl
      · rw [if_neg hdot] at h; simp at h
    · by_cases hdot : '.' ∈ lowerStr name
      · rw [if_pos hdot] at h
        have := hdoc.2 ⟨hdot, Option.some.inj h⟩
        rw [this]
        simp
      · rw [if_neg hdot] at h; simp at h
    · by_cases hdot : '.' ∈ lowerStr name
      · rw [if_pos hdot] at h
        have := hdocx.2 ⟨hdot, Option.some.inj h⟩
        rw [this]
        simp
      · rw [if_neg hdot] at h; simp at h

example : versionCodeToRelease "800".data = some 112 := rfl

example : versionCodeToRelease "i60".data = some 244 := rfl

example : versionCodeToRelease "005".data = some 5 := rfl

example : versionCodeToRelease "0!y".data = none := rfl

theorem find?_append {p : ZipEntry → Bool} :
    ∀ a b : List ZipEntry, (a ++ b).find? p =
      match a.find? p with
      | some r => some r
      | none => b.find? p := by
  intro a b
  induction a with
  | nil => rfl
  | cons e t ih =>
    rw [List.cons_append]
    by_cases he : p e = true
    · rw [List.find?_cons_of_pos _ he, List.find?_cons_of_pos _ he]
    · rw [List.find?_cons_of_neg _ (by simpa using he),
        List.find?_cons_of_neg _ (by simpa using he), ih]

/-- The directory after a fold of extractions, pointwise: the last write to a
name wins, untouched names keep their prior content. -/
theorem foldl_extractEntry_apply :
    ∀ (l : List ZipEntry) (d : Dir) (x : List Char),
      (l.foldl extractEntry d) x =
        match l.reverse.find? (fun e => decide (e.1 = x)) with
        | some e => some e.2
        | none => d x := by
  intro l
  induction l with
  | nil => intro d x; rfl
  | cons e t ih =>
    intro d x
    rw [List.foldl_cons, ih, List.reverse_cons, find?_append]
    cases hf : t.reverse.find? (fun f => decide (f.1 = x)) with
    | some r => rfl
    | none =>
      simp only [List.find?_singleton]
      by_cases hx : e.1 = x
      · rw [if_pos (by simpa using hx)]
        subst hx
        simp [extractEntry, Function.update_same]
      · rw [if_neg (by simpa using hx)]
        exact Function.update_noteq (Ne.symm hx) _ _

/-! ## Claim theorems -/
/-- C2: for release numbers 0-9 `rel_to_zip_suffix` yields the decimal digit
character as the release prefix (followed by `"00"`); for 10-35 it yields the
lowercase letter at offset `n - 10` from `a`; for 36 and above it fails with
the unsupported-release `ValueError`. -/
theorem claim_C2_release_to_token :
    (∀ n : Nat, n ≤ 9 → relSuffixOfNum n = .ok [Char.ofNat (48 + n), '0', '0']) ∧
    (∀ n : Nat, 10 ≤ n → n ≤ 35 →
      relSuffixOfNum n = .ok [Char.ofNat (97 + (n - 10)), '0', '0']) ∧
    (∀ n : Nat, 36 ≤ n →
      relSuffixOfNum n = .error (.valueError ("Unsupported release number".data))) ∧
    rel_to_zip_suffix "Rel-7".data = .ok "700".data ∧
    rel_to_zip_suffix "Rel-18".data = .ok "i00".data := by
  refine ⟨?_, ?_, ?_, rfl, rfl⟩
  · intro n hn
    unfold relSuffixOfNum
    rw [if_pos (by omega)]
  · intro n h1 h2
    unfold relSuffixOfNum
    rw [if_neg (by omega), if_pos (by omega)]
    have : 97 + n - 10 = 97 + (n - 10) := by omega
    rw [this]
  · intro n hn
    unfold relSuffixOfNum
    rw [if_neg (by omega), if_neg (by omega)]

theorem claim_C2_release_to_token_witness :
    relSuffixOfNum 7 = .ok ['7', '0', '0'] ∧ relSuffixOfNum 18 = .ok ['i', '0', '0'] ∧
      relSuffixOfNum 40 = .error (.valueError ("Unsupported release number".data)) := by
  refine ⟨?_, ?_, claim_C2_release_to_token.2.2.1 40 (by omega)⟩
  · have h := claim_C2_release_to_token.1 7 (by omega)
    rw [h]
  · have h := claim_C2_release_to_token.2.1 18 (by omega) (by omega)
    rw [h]

/-- C3 counterexample: the token `"-11"` contains the non-base-36 character
`-`, yet `tokenOrderValue` returns `-37` (Python `int("-11", 36)`), not the
sentinel `0` the claim demands for every token containing a non-base-36
character. -/
theorem claim_C3_counterexample :
    ('-' ∈ "-11".data ∧ isBase36 '-' = false) ∧
      tokenOrderValue "-11".data = -37 ∧ ¬ (tokenOrderValue "-11".data = 0) := by
  exact ⟨by decide, by decide, by decide⟩

/-- C3 (amended): on tokens made of base-36 characters `tokenOrderValue` is
the base-36 integer value of the full token, so ordering agrees with base-36
numeric order (`"900" < "a00"`, `"i00" < "i5z" < "i60"`); the sentinel `0` is
returned for tokens containing a character that is not a base-36 digit,
whitespace, a sign, or an underscore — but tokens that Python's `int(·, 36)`
accepts with sign/whitespace/underscores (such as `"-11"`) parse to their
(possibly negative) value instead. -/
theorem claim_C3_token_order :
    (∀ tok : List Char, tok ≠ [] → (∀ c ∈ tok, isBase36 c = true) →
      tokenOrderValue tok = (base36val tok : Int)) ∧
    (∀ tok : List Char,
      (∃ c ∈ tok, isWsChar c = false ∧ ¬ (c = '+') ∧ ¬ (c = '-') ∧ ¬ (c = '_') ∧
        isBase36 c = false) →
      tokenOrderValue tok = 0) ∧
    tokenOrderValue "900".data < tokenOrderValue "a00".data ∧
    tokenOrderValue "i00".data < tokenOrderValue "i5z".data ∧
    tokenOrderValue "i5z".data < tokenOrderValue "i60".data := by
  refine ⟨?_, ?_, by decide, by decide, by decide⟩
  · intro tok hne hall
    unfold tokenOrderValue
    rw [pyInt36_all_base36 tok hne hall]
    rfl
  · rintro tok ⟨c, hc, hw, hp, hm, hu, hb⟩
    unfold tokenOrderValue
    cases hpy : pyInt36 tok with
    | none => rfl
    | some n =>
      exfalso
      rcases pyInt36_some_chars hpy c hc with h | h | h | h | h
      · rw [hw] at h; exact Bool.false_ne_true h
      · exact hp h
      · exact hm h
      · exact hu h
      · rw [hb] at h; exact Bool.false_ne_true h

theorem claim_C3_token_order_witness :
    tokenOrderValue "i60".data = (base36val "i60".data : Int) ∧
      tokenOrderValue "x!y".data = 0 :=
  ⟨claim_C3_token_order.1 "i60".data (by decide) (by decide),
    claim_C3_token_order.2.1 "x!y".data
      ⟨'!', by decide, by decide, by decide, by decide, by decide, by decide⟩⟩

/-- C5 counterexample: the code divides the base-36 value of the whole token,
not of its two trailing characters.  For `"800"` (leading digit `8`) the
claim predicts release `8` but the code computes `10 + 10368 // 100 - 1 =
112`; for `"i60"` (leading letter) the claim's formula gives
`10 + int("60", 36) // 100 - 1 = 11` but the code computes `244`. -/
theorem claim_C5_counterexample :
    versionCodeToRelease "800".data = some 112 ∧ ¬ ((112 : Int) = 8) ∧
      versionCodeToRelease "i60".data = some 244 ∧
      10 + tokenOrderValue "60".data / 100 - 1 = (11 : Int) ∧ ¬ ((244 : Int) = 11) := by
  exact ⟨rfl, by decide, rfl, by decide, by decide⟩

/-- C5 (amended): for every version token of base-36 characters the
conversion returns `v` when `v < 10` and `10 + v / 100 - 1` otherwise, where
`v` is the base-36 value of the whole token (not of its trailing characters);
tokens that fail base-36 parsing are skipped. -/
theorem claim_C5_token_to_release :
    ∀ code : List Char, code ≠ [] → (∀ c ∈ code, isBase36 c = true) →
      versionCodeToRelease code =
        some (if (base36val code : Int) < 10 then (base36val code : Int)
          else 10 + (base36val code : Int) / 100 - 1) := by
  intro code hne hall
  unfold versionCodeToRelease
  rw [pyInt36_all_base36 code hne hall]

theorem claim_C5_token_to_release_witness :
    versionCodeToRelease "800".data =
      some (if (base36val "800".data : Int) < 10 then (base36val "800".data : Int)
        else 10 + (base36val "800".data : Int) / 100 - 1) :=
  claim_C5_token_to_release "800".data (by decide) (by decide)

/-- C7: extraction keeps exactly the archive entries whose extension,
compared case-insensitively, is `pdf`, `doc` or `docx`, and silently skips
every other entry; the example archive
`{"spec.pdf", "readme.txt", "draft.DOCX"}` yields
`{"spec.pdf", "draft.DOCX"}`. -/
theorem claim_C7_selective_extraction :
    (∀ (namelist : List (List Char)) (name : List Char),
      name ∈ extractedNames namelist ↔
        name ∈ namelist ∧
          (extOf (lowerStr name) = some "pdf".data ∨
            extOf (lowerStr name) = some "doc".data ∨
            extOf (lowerStr name) = some "docx".data)) ∧
    extractedNames ["spec.pdf".data, "readme.txt".data, "draft.DOCX".data] =
      ["spec.pdf".data, "draft.DOCX".data] := by
  constructor
  · intro namelist name
    rw [extractedNames, List.mem_filter, hasDocExtSfx_iff_extOf]
  · rfl

/-- C8: re-running extraction of the same archive into the same directory
returns the same extracted-name list and leaves the directory in the same
state (files are overwritten with the same contents). -/
theorem claim_C8_extraction_idempotent :
    ∀ (entries : List ZipEntry) (d : Dir),
      (download_and_extract entries (download_and_extract entries d).2).1 =
        (download_and_extract entries d).1 ∧
      (download_and_extract entries (download_and_extract entries d).2).2 =
        (download_and_extract entries d).2 := by
  intro entries d
  refine ⟨rfl, ?_⟩
  funext x
  show ((entries.filter (fun e => hasDocExtSfx e.1)).foldl extractEntry
      ((entries.filter (fun e => hasDocExtSfx e.1)).foldl extractEntry d)) x =
    ((entries.filter (fun e => hasDocExtSfx e.1)).foldl extractEntry d) x
  rw [foldl_extractEntry_apply, foldl_extractEntry_apply]
  cases hf : (entries.filter (fun e => hasDocExtSfx e.1)).reverse.find?
      (fun e => decide (e.1 = x)) with
  | some e => rfl
  | none => rfl

theorem filter_map_candidates (series number : List Char) (hs : '/' ∉ series)
    (hn : '/' ∉ number) (pfxC : Char) (rs : List Char) (toks : List (List Char))
    (htok : ∀ t ∈ toks, '/' ∉ t) :
    (toks.map (mkHref series number)).filter (isCandidate series number (pfxC :: rs)) =
      (toks.filter (fun t => hasPfx t [pfxC])).map (mkHref series number) := by
  rw [List.filter_map]
  congr 1
  apply List.filter_congr
  intro t ht
  exact isCandidate_mkHref hs hn (htok t ht) pfxC rs

/-- C1: the release-selection core of `find_spec_zip_link` over a listing of
well-formed entries `{series}{number}-{tok}.zip`: it keeps exactly the
candidates whose version token starts with the requested prefix character,
returns `none` (not an error) when no token matches, and otherwise returns
the candidate whose token has the greatest `tokenOrderValue`, resolving ties
deterministically by first occurrence in listing order (everything before the
selected token is strictly smaller, everything after is no greater).  For
tokens `i00`, `i60`, `j00` and prefix `i` the selection is `24301-i60.zip`. -/
theorem claim_C1_select_for_release
    (series number : List Char) (hs : '/' ∉ series) (hn : '/' ∉ number)
    (pfxC : Char) (rs : List Char) (toks : List (List Char))
    (htok : ∀ t ∈ toks, '/' ∉ t) :
    (find_spec_zip_link series number (pfxC :: rs) (toks.map (mkHref series number)) =
        none ↔ toks.filter (fun t => hasPfx t [pfxC]) = []) ∧
    (∀ sel,
      find_spec_zip_link series number (pfxC :: rs) (toks.map (mkHref series number)) =
          some sel →
      ∃ t l1 l2, sel = mkHref series number t ∧
        toks.filter (fun t => hasPfx t [pfxC]) = l1 ++ t :: l2 ∧
        (∀ x ∈ l1, tokenOrderValue x < tokenOrderValue t) ∧
        (∀ x ∈ l2, tokenOrderValue x ≤ tokenOrderValue t)) ∧
    find_spec_zip_link "24".data "301".data "i00".data
      ["24301-i00.zip".data, "24301-i60.zip".data, "24301-j00.zip".data] =
      some "24301-i60.zip".data := by
  have hfilter := filter_map_candidates series number hs hn pfxC rs toks htok
  refine ⟨?_, ?_, rfl⟩
  · rw [find_spec_zip_link, hfilter]
    cases hm : toks.filter (fun t => hasPfx t [pfxC]) with
    | nil => simp
    | cons m ms => simp
  · intro sel hsel
    rw [find_spec_zip_link, hfilter] at hsel
    cases hm : toks.filter (fun t => hasPfx t [pfxC]) with
    | nil => rw [hm] at hsel; simp at hsel
    | cons m ms =>
      rw [hm, List.map_cons] at hsel
      simp only [Option.some.injEq] at hsel
      have hmem_toks : ∀ x ∈ m :: ms, x ∈ toks := by
        intro x hx
        have : x ∈ toks.filter (fun t => hasPfx t [pfxC]) := hm ▸ hx
        exact List.mem_of_mem_filter this
      have hev : ∀ x ∈ m :: ms,
          extract_version series number (mkHref series number x) = tokenOrderValue x :=
        fun x hx => extract_version_mkHref hs hn (htok x (hmem_toks x hx))
      rw [maxByFirst_map (extract_version series number) (mkHref series number) ms m]
        at hsel
      rw [maxByFirst_congr _ tokenOrderValue ms m hev] at hsel
      obtain ⟨l1, l2, hdec, h1, h2⟩ := maxByFirst_split tokenOrderValue ms m
      exact ⟨maxByFirst tokenOrderValue m ms, l1, l2, hsel.symm, hm ▸ hdec, h1, h2⟩

theorem claim_C1_select_for_release_witness :
    find_spec_zip_link "24".data "301".data ('i' :: "00".data)
        (["i00".data, "i60".data, "j00".data].map (mkHref "24".data "301".data)) =
        none ↔
      ["i00".data, "i60".data, "j00".data].filter (fun t => hasPfx t ['i']) = [] :=
  (claim_C1_select_for_release "24".data "301".data (by decide) (by decide) 'i'
    "00".data ["i00".data, "i60".data, "j00".data] (by decide)).1

/-- C4 counterexample: the filter is not anchored to a 3-character token.
`24301-f400.zip` (a 4-character token) does not match the claimed exact
pattern for document (24, 301), yet the candidate scan retains it. -/
theorem claim_C4_counterexample :
    fetchCandidates "24".data "301".data ["24301-f400.zip".data] =
        ["24301-f400.zip".data] ∧
      matchesDocPattern3 "24".data "301".data "24301-f400.zip".data = false := by
  exact ⟨rfl, rfl⟩

/-- C4 (amended): the candidate scan retains exactly the hyperlinks ending in
`.zip` whose basename starts with `{series}{number}-` and ends with `.zip` —
the version token in between may have any length, not only 3 characters.
Sibling documents sharing a digit prefix are still rejected: for the listing
`24301-f40.zip`, `24301-g20.zip`, `24302-f10.zip` and document (24, 301),
exactly the first two are retained.  Every well-formed
`{series}{number}-{tok}.zip` entry is retained. -/
theorem claim_C4_candidate_filter :
    (∀ (series number : List Char) (hrefs : List (List Char)) (h : List Char),
      h ∈ fetchCandidates series number hrefs ↔
        h ∈ hrefs ∧ isDocZip series number h = true) ∧
    (∀ series number tok : List Char, '/' ∉ series → '/' ∉ number → '/' ∉ tok →
      isDocZip series number (mkHref series number tok) = true) ∧
    fetchCandidates "24".data "301".data
      ["24301-f40.zip".data, "24301-g20.zip".data, "24302-f10.zip".data] =
      ["24301-f40.zip".data, "24301-g20.zip".data] := by
  refine ⟨?_, ?_, rfl⟩
  · intro series number hrefs h
    rw [fetchCandidates, List.mem_filter]
  · intro series number tok hs hn ht
    exact isDocZip_mkHref hs hn ht

theorem claim_C4_candidate_filter_witness :
    isDocZip "24".data "301".data (mkHref "24".data "301".data "f40".data) = true :=
  claim_C4_candidate_filter.2.1 "24".data "301".data "f40".data (by decide) (by decide)
    (by decide)

theorem isWsChar_eq_false_of_digit {c : Char} (h : isDigitChar c = true) :
    isWsChar c = false := by
  cases hw : isWsChar c with
  | false => rfl
  | true =>
    exfalso
    simp only [isWsChar, Bool.decide_or, Bool.or_eq_true, decide_eq_true_eq] at hw
    rcases hw with h1 | h1 | h1 | h1 | h1 | h1 <;> subst h1 <;> exact absurd h (by decide)

theorem dropWhile_append_all {p : Char → Bool} (ws l : List Char)
    (h : ∀ c ∈ ws, p c = true) : (ws ++ l).dropWhile p = l.dropWhile p := by
  induction ws with
  | nil => rfl
  | cons c t ih =>
    rw [List.cons_append, List.dropWhile_cons, if_pos (by simp [h c (by simp)])]
    exact ih (fun d hd => h d (by simp [hd]))

theorem expectCat_eq_some {u r : List Char} (h : expectCat u = some r) :
    ∃ c1 c2, u = c1 :: c2 :: r ∧
      ([c1, c2] = "TS".data ∨ [c1, c2] = "TR".data ∨ [c1, c2] = "GS".data ∨
        [c1, c2] = "GR".data) := by
  cases u with
  | nil => simp [expectCat] at h
  | cons c1 t =>
    cases t with
    | nil => simp [expectCat] at h
    | cons c2 rest =>
      simp only [expectCat] at h
      by_cases hc : [c1, c2] = "TS".data ∨ [c1, c2] = "TR".data ∨
          [c1, c2] = "GS".data ∨ [c1, c2] = "GR".data
      · rw [if_pos hc] at h
        exact ⟨c1, c2, by rw [Option.some.inj h], hc⟩
      · rw [if_neg hc] at h
        simp at h

theorem expectChar_eq_some {c : Char} {l r : List Char}
    (h : expectChar c l = some r) : l = c :: r := by
  cases l with
  | nil => simp [expectChar] at h
  | cons d t =>
    simp only [expectChar] at h
    by_cases hd : d = c
    · rw [if_pos hd] at h
      rw [hd, Option.some.inj h]
    · rw [if_neg hd] at h
      simp at h

theorem expectDigits_two_eq_some {l : List Char} {p : List Char × List Char}
    (h : expectDigits 2 l = some p) :
    ∃ d1 d2 r, l = d1 :: d2 :: r ∧ isDigitChar d1 = true ∧ isDigitChar d2 = true ∧
      p = ([d1, d2], r) := by
  unfold expectDigits at h
  by_cases hc : (l.take 2).length = 2 ∧ (l.take 2).all isDigitChar
  · rw [if_pos hc] at h
    obtain ⟨hlen, hall⟩ := hc
    cases l with
    | nil => simp at hlen
    | cons a t =>
      cases t with
      | nil => simp at hlen
      | cons b r =>
        have htake : (a :: b :: r).take 2 = [a, b] := rfl
        rw [htake] at hall
        simp only [List.all_cons, List.all_nil, Bool.and_eq_true, Bool.and_true] at hall
        refine ⟨a, b, r, rfl, hall.1, hall.2, ?_⟩
        rw [← Option.some.inj h, htake]
        rfl
  · rw [if_neg hc] at h
    simp at h

theorem expectDigits_three_eq_some {l : List Char} {p : List Char × List Char}
    (h : expectDigits 3 l = some p) :
    ∃ e1 e2 e3 r, l = e1 :: e2 :: e3 :: r ∧ isDigitChar e1 = true ∧
      isDigitChar e2 = true ∧ isDigitChar e3 = true ∧ p = ([e1, e2, e3], r) := by
  unfold expectDigits at h
  by_cases hc : (l.take 3).length = 3 ∧ (l.take 3).all isDigitChar
  · rw [if_pos hc] at h
    obtain ⟨hlen, hall⟩ := hc
    cases l with
    | nil => simp at hlen
    | cons a t =>
      cases t with
      | nil => simp at hlen
      | cons b t2 =>
        cases t2 with
        | nil => simp at hlen
        | cons c r =>
          have htake : (a :: b :: c :: r).take 3 = [a, b, c] := rfl
          rw [htake] at hall
          simp only [List.all_cons, List.all_nil, Bool.and_eq_true, Bool.and_true] at hall
          refine ⟨a, b, c, r, rfl, hall.1, hall.2.1, hall.2.2, ?_⟩
          rw [← Option.some.inj h, htake]
          rfl
  · rw [if_neg hc] at h
    simp at h

theorem expectCat_intro (c1 c2 : Char) (rest : List Char)
    (h : [c1, c2] = "TS".data ∨ [c1, c2] = "TR".data ∨ [c1, c2] = "GS".data ∨
      [c1, c2] = "GR".data) :
    expectCat (c1 :: c2 :: rest) = some rest := by
  simp only [expectCat]
  rw [if_pos h]

theorem expectDigits_two_intro (d1 d2 : Char) (r : List Char)
    (h1 : isDigitChar d1 = true) (h2 : isDigitChar d2 = true) :
    expectDigits 2 (d1 :: d2 :: r) = some ([d1, d2], r) := by
  unfold expectDigits
  rw [if_pos]
  · rfl
  · constructor
    · rfl
    · show ([d1, d2] : List Char).all isDigitChar = true
      simp [h1, h2]

theorem expectDigits_three_intro (e1 e2 e3 : Char) (r : List Char)
    (h1 : isDigitChar e1 = true) (h2 : isDigitChar e2 = true)
    (h3 : isDigitChar e3 = true) :
    expectDigits 3 (e1 :: e2 :: e3 :: r) = some ([e1, e2, e3], r) := by
  unfold expectDigits
  rw [if_pos]
  · rfl
  · constructor
    · rfl
    · show ([e1, e2, e3] : List Char).all isDigitChar = true
      simp [h1, h2, h3]

/-- C6 counterexample: `"24.301"` matches the claimed shape (the category
token is optional there) yet `parse_spec_number` rejects it, because the
regex alternation `(TS|TR|GS|GR)` is mandatory; conversely
`"TS 24.301 x"` has trailing text the claimed whole-string shape rejects,
yet `parse_spec_number` accepts it, because `re.match` anchors only the
start. -/
theorem claim_C6_counterexample :
    specShapeFull "24.301".data = true ∧
      parse_spec_number "24.301".data =
        .error (.valueError "Invalid spec format. Example: TS 24.301, TR 38.101-1".data) ∧
      specShapeFull "TS 24.301 x".data = false ∧
      parse_spec_number "TS 24.301 x".data = .ok ("24".data, "301".data, "1".data) :=
  ⟨rfl, rfl, rfl, rfl⟩

/-- C6 (amended): `parse_spec_number` succeeds exactly when the uppercased
input STARTS WITH a MANDATORY category token from {TS, TR, GS, GR}, optional
whitespace, a 2-digit series, a literal `.`, and a 3-digit document number;
arbitrary trailing text (including a dash-suffixed part number, which is
captured or defaulted to "1" and ignored by callers) is accepted; matching is
case-insensitive and there are no side effects. -/
theorem claim_C6_parse_document_key :
    (∀ s ser num sub : List Char,
      parse_spec_number s = .ok (ser, num, sub) →
      ∃ cat ws tail : List Char, ∃ d1 d2 e1 e2 e3 : Char,
        upperStr s = cat ++ ws ++ d1 :: d2 :: '.' :: e1 :: e2 :: e3 :: tail ∧
        (cat = "TS".data ∨ cat = "TR".data ∨ cat = "GS".data ∨ cat = "GR".data) ∧
        (∀ c ∈ ws, isWsChar c = true) ∧
        isDigitChar d1 = true ∧ isDigitChar d2 = true ∧ isDigitChar e1 = true ∧
        isDigitChar e2 = true ∧ isDigitChar e3 = true ∧
        ser = [d1, d2] ∧ num = [e1, e2, e3]) ∧
    (∀ (s cat ws tail : List Char) (d1 d2 e1 e2 e3 : Char),
      upperStr s = cat ++ ws ++ d1 :: d2 :: '.' :: e1 :: e2 :: e3 :: tail →
      (cat = "TS".data ∨ cat = "TR".data ∨ cat = "GS".data ∨ cat = "GR".data) →
      (∀ c ∈ ws, isWsChar c = true) →
      isDigitChar d1 = true → isDigitChar d2 = true → isDigitChar e1 = true →
      isDigitChar e2 = true → isDigitChar e3 = true →
      ∃ sub, parse_spec_number s = .ok ([d1, d2], [e1, e2, e3], sub)) ∧
    parse_spec_number "TR 38.101-1".data = .ok ("38".data, "101".data, "1".data) := by
  refine ⟨?_, ?_, rfl⟩
  · intro s ser num sub h
    unfold parse_spec_number at h
    cases hms : matchSpec (upperStr s) with
    | none => rw [hms] at h; exact absurd h (by simp)
    | some r =>
      rw [hms] at h
      have hr : r = (ser, num, sub) := Except.ok.inj h
      subst hr
      unfold matchSpec at hms
      cases hc : expectCat (upperStr s) with
      | none => rw [hc] at hms; simp at hms
      | some r1 =>
        rw [hc, Option.some_bind] at hms
        cases hd2 : expectDigits 2 (r1.dropWhile isWsChar) with
        | none => rw [hd2] at hms; simp at hms
        | some p1 =>
          rw [hd2, Option.some_bind] at hms
          cases hch : expectChar '.' p1.2 with
          | none => rw [hch] at hms; simp at hms
          | some r2 =>
            rw [hch, Option.some_bind] at hms
            cases hd3 : expectDigits 3 r2 with
            | none => rw [hd3] at hms; simp at hms
            | some p2 =>
              rw [hd3, Option.some_bind] at hms
              obtain ⟨c1, c2, hu, hcat⟩ := expectCat_eq_some hc
              obtain ⟨d1, d2, rA, hr1, hdig1, hdig2, hp1⟩ := expectDigits_two_eq_some hd2
              obtain ⟨e1, e2, e3, rB, hr2, he1, he2, he3, hp2⟩ :=
                expectDigits_three_eq_some hd3
              have hws : r1 = r1.takeWhile isWsChar ++ r1.dropWhile isWsChar :=
                (List.takeWhile_append_dropWhile isWsChar r1).symm
              have hchr : p1.2 = '.' :: r2 := expectChar_eq_some hch
              refine ⟨[c1, c2], r1.takeWhile isWsChar, rB, d1, d2, e1, e2, e3, ?_, hcat,
                ?_, hdig1, hdig2, he1, he2, he3, ?_, ?_⟩
              · rw [hu]
                nth_rewrite 1 [hws]
                rw [hr1]
                have hrA : rA = '.' :: e1 :: e2 :: e3 :: rB := by
                  have hpa : p1.2 = rA := by rw [hp1]
                  rw [← hpa, hchr, hr2]
                rw [hrA]
                simp
              · intro c hcw
                exact List.mem_takeWhile_imp hcw
              · have := Option.some.inj hms
                rw [hp1] at this
                exact (Prod.mk.injEq _ _ _ _ ▸ this.symm).1
              · have := Option.some.inj hms
                rw [hp2] at this
                have h2 := (Prod.mk.injEq _ _ _ _ ▸ this.symm).2
                exact (Prod.mk.injEq _ _ _ _ ▸ h2).1
  · intro s cat ws tail d1 d2 e1 e2 e3 hu hcat hws h1 h2 h3 h4 h5
    have hcatstep : expectCat (upperStr s) =
        some (ws ++ d1 :: d2 :: '.' :: e1 :: e2 :: e3 :: tail) := by
      rw [hu]
      rcases hcat with rfl | rfl | rfl | rfl
      · exact expectCat_intro 'T' 'S' _ (by decide)
      · exact expectCat_intro 'T' 'R' _ (by decide)
      · exact expectCat_intro 'G' 'S' _ (by decide)
      · exact expectCat_intro 'G' 'R' _ (by decide)
    have hdrop : (ws ++ d1 :: d2 :: '.' :: e1 :: e2 :: e3 :: tail).dropWhile isWsChar =
        d1 :: d2 :: '.' :: e1 :: e2 :: e3 :: tail := by
      rw [dropWhile_append_all ws _ hws, List.dropWhile_cons,
        if_neg (by simp [isWsChar_eq_false_of_digit h1])]
    refine ⟨(optPartNum tail).getD "1".data, ?_⟩
    have hms : matchSpec (upperStr s) =
        some ([d1, d2], [e1, e2, e3], (optPartNum tail).getD "1".data) := by
      unfold matchSpec
      rw [hcatstep, Option.some_bind, hdrop, expectDigits_two_intro d1 d2 _ h1 h2,
        Option.some_bind]
      show (expectChar '.' ('.' :: e1 :: e2 :: e3 :: tail)).bind
          (fun r2 => (expectDigits 3 r2).bind fun p2 =>
            some (([d1, d2] : List Char), p2.1, (optPartNum p2.2).getD "1".data)) =
        some ([d1, d2], [e1, e2, e3], (optPartNum tail).getD "1".data)
      rw [show expectChar '.' ('.' :: e1 :: e2 :: e3 :: tail) =
          some (e1 :: e2 :: e3 :: tail) from rfl, Option.some_bind,
        expectDigits_three_intro e1 e2 e3 _ h3 h4 h5, Option.some_bind]
    unfold parse_spec_number
    rw [hms]

theorem claim_C6_parse_document_key_witness :
    ∃ sub, parse_spec_number "TS 24.301".data = .ok ("24".data, "301".data, sub) :=
  claim_C6_parse_document_key.2.1 "TS 24.301".data "TS".data " ".data [] '2' '4' '3'
    '0' '1' (by decide) (Or.inl rfl) (by decide) (by decide) (by decide) (by decide)
    (by decide) (by decide)

/-- C9: every tool of the MCP surface returns a structured success-or-failure
message for every input and never propagates an exception: each body is
wrapped in `try/except Exception`, so `check_3gpp_link` can only answer
error/not-found/link-found, `download_3gpp_document` only
error/invalid-id/completed, and `list_available_specs` only one of its
structured answers.  (The three tools realise the four described operations:
`check_3gpp_link` both resolves and registers the download id,
`download_3gpp_document` both performs the download and reports its result.) -/
theorem claim_C9_tool_messages :
    (∀ (spec release : List Char) (fetch : FetchOutcome) (timeStr : List Char)
        (st : Registry),
      (∃ e, (check_3gpp_link spec release fetch timeStr st).1 = .errorOccurred e) ∨
      (check_3gpp_link spec release fetch timeStr st).1 = .linkNotFound spec release ∨
      (∃ link dlId, (check_3gpp_link spec release fetch timeStr st).1 =
        .linkFound spec release link dlId)) ∧
    (∀ (dlId outputDir : List Char) (sizeFetch : Except PyExc Nat)
        (zipFetch : Except PyExc (List ZipEntry)) (st : Registry) (d : Dir),
      (∃ e, (download_3gpp_document dlId outputDir sizeFetch zipFetch st d).1 =
        .errorOccurred e) ∨
      (download_3gpp_document dlId outputDir sizeFetch zipFetch st d).1 =
        .invalidDownloadId dlId ∨
      (∃ sp rel files, (download_3gpp_document dlId outputDir sizeFetch zipFetch st d).1 =
        .downloadCompleted sp rel outputDir files)) ∧
    (∀ (spec release : List Char) (fetch : FetchOutcome)
        (seriesFetches : List (Nat × FetchOutcome)),
      (∃ e, list_available_specs spec release fetch seriesFetches = .errorOccurred e) ∨
      list_available_specs spec release fetch seriesFetches = .specNotInArchive spec ∨
      (∃ v latest, list_available_specs spec release fetch seriesFetches =
        .specReleaseAvailable spec release v latest) ∨
      (∃ av, list_available_specs spec release fetch seriesFetches =
        .specReleaseNotAvailable spec release av) ∨
      (∃ en, list_available_specs spec release fetch seriesFetches =
        .releasesOverview spec en) ∨
      list_available_specs spec release fetch seriesFetches = .noValidReleases spec ∨
      (∃ rows, list_available_specs spec release fetch seriesFetches =
        .seriesOverview rows) ∨
      list_available_specs spec release fetch seriesFetches = .couldNotRetrieveSeries) := by
  refine ⟨?_, ?_, ?_⟩
  · intro spec release fetch timeStr st
    cases hp : parse_spec_number spec with
    | error e =>
      refine Or.inl ⟨e, ?_⟩
      unfold check_3gpp_link
      simp only [hp]
    | ok r =>
      obtain ⟨series, number, sub⟩ := r
      cases hr : rel_to_zip_suffix release with
      | error e =>
        refine Or.inl ⟨e, ?_⟩
        unfold check_3gpp_link
        simp only [hp, hr]
      | ok relSfx =>
        cases fetch with
        | fail e =>
          refine Or.inl ⟨e, ?_⟩
          unfold check_3gpp_link
          simp only [hp, hr]
        | ok hrefs =>
          cases hf : find_spec_zip_link series number relSfx hrefs with
          | none =>
            refine Or.inr (Or.inl ?_)
            unfold check_3gpp_link
            simp only [hp, hr, hf]
          | some link =>
            refine Or.inr (Or.inr
              ⟨link, spec ++ '_' :: release ++ '_' :: timeStr, ?_⟩)
            unfold check_3gpp_link
            simp only [hp, hr, hf]
  · intro dlId outputDir sizeFetch zipFetch st d
    cases hs : st dlId with
    | none =>
      refine Or.inr (Or.inl ?_)
      unfold download_3gpp_document
      simp only [hs]
    | some info =>
      cases sizeFetch with
      | error e =>
        refine Or.inl ⟨e, ?_⟩
        unfold download_3gpp_document
        simp only [hs]
      | ok n =>
        cases zipFetch with
        | error e =>
          refine Or.inl ⟨e, ?_⟩
          unfold download_3gpp_document
          simp only [hs]
        | ok entries =>
          refine Or.inr (Or.inr ⟨info.spec, info.release,
            (download_and_extract entries d).1, ?_⟩)
          unfold download_3gpp_document
          simp only [hs]
  · intro spec release fetch seriesFetches
    by_cases hsp : spec = []
    · cases hrows : (seriesRows seriesFetches).isEmpty with
      | true =>
        refine Or.inr (Or.inr (Or.inr (Or.inr (Or.inr (Or.inr (Or.inr ?_))))))
        unfold list_available_specs
        rw [if_pos hsp]
        simp only [hrows]
        simp
      | false =>
        have hmain : list_available_specs spec release fetch seriesFetches =
            .seriesOverview (seriesRows seriesFetches) := by
          unfold list_available_specs
          rw [if_pos hsp]
          simp only [hrows]
          simp
        exact Or.inr (Or.inr (Or.inr (Or.inr (Or.inr (Or.inr (Or.inl ⟨_, hmain⟩))))))
    · cases hp : parse_spec_number spec with
      | error e =>
        refine Or.inl ⟨e, ?_⟩
        unfold list_available_specs
        simp only [if_neg hsp, hp]
      | ok r =>
        obtain ⟨series, number, sub⟩ := r
        cases fetch with
        | fail e =>
          refine Or.inl ⟨e, ?_⟩
          unfold list_available_specs
          simp only [if_neg hsp, hp]
        | ok hrefs =>
          cases hz : (hrefs.filter (fun h => hasSfx h zipSfx)).isEmpty with
          | true =>
            refine Or.inr (Or.inl ?_)
            unfold list_available_specs
            rw [if_neg hsp]
            simp only [hp, hz]
            simp
          | false =>
            by_cases hrel : release = []
            · cases hcr : (collectReleases series number
                  (hrefs.filter (fun h => hasSfx h zipSfx))).isEmpty with
              | true =>
                refine Or.inr (Or.inr (Or.inr (Or.inr (Or.inr (Or.inl ?_)))))
                unfold list_available_specs
                rw [if_neg hsp]
                simp only [hp, hz, if_pos hrel, hcr]
                simp
              | false =>
                have hmain : list_available_specs spec release (FetchOutcome.ok hrefs)
                    seriesFetches =
                    .releasesOverview spec (collectReleases series number
                      (hrefs.filter (fun h => hasSfx h zipSfx))) := by
                  unfold list_available_specs
                  rw [if_neg hsp]
                  simp only [hp, hz, if_pos hrel, hcr]
                  simp
                exact Or.inr (Or.inr (Or.inr (Or.inr (Or.inl ⟨_, hmain⟩))))
            · cases hfind : (collectReleases series number
                  (hrefs.filter (fun h => hasSfx h zipSfx))).find?
                  (fun p => decide (relKey p.1 = release)) with
              | some p =>
                have hmain : list_available_specs spec release (FetchOutcome.ok hrefs)
                    seriesFetches =
                    .specReleaseAvailable spec release
                      (p.2.mergeSort (fun a b => tokenOrderValue a ≤ tokenOrderValue b))
                      ((p.2.mergeSort
                        (fun a b => tokenOrderValue a ≤ tokenOrderValue b)).getLastD []) := by
                  unfold list_available_specs
                  rw [if_neg hsp]
                  simp only [hp, hz, if_neg hrel, hfind]
                  simp
                exact Or.inr (Or.inr (Or.inl ⟨_, _, hmain⟩))
              | none =>
                have hmain : list_available_specs spec release (FetchOutcome.ok hrefs)
                    seriesFetches =
                    .specReleaseNotAvailable spec release ((collectReleases series number
                      (hrefs.filter (fun h => hasSfx h zipSfx))).map (fun p => p.1)) := by
                  unfold list_available_specs
                  rw [if_neg hsp]
                  simp only [hp, hz, if_neg hrel, hfind]
                  simp
                exact Or.inr (Or.inr (Or.inr (Or.inl ⟨_, hmain⟩)))

/-- C10: download tasks are consumed at most once and the registry is
untouched on error.  `check_3gpp_link` registers the id it reports; a
successful `download_3gpp_document` deletes that registry entry, so a second
call with the same id answers with the invalid-download-ID message; on the
invalid-id and error paths the registry is returned unchanged (the deletion
happens only on the success path). -/
theorem claim_C10_at_most_once :
    (∀ (spec release : List Char) (fetch : FetchOutcome) (timeStr : List Char)
        (st : Registry) (link dlId : List Char),
      (check_3gpp_link spec release fetch timeStr st).1 =
          .linkFound spec release link dlId →
      ∃ info, (check_3gpp_link spec release fetch timeStr st).2 dlId = some info) ∧
    (∀ (dlId outputDir : List Char) (sizeFetch : Except PyExc Nat)
        (zipFetch : Except PyExc (List ZipEntry)) (st : Registry) (d : Dir)
        (sp rel : List Char) (files : List (List Char)),
      (download_3gpp_document dlId outputDir sizeFetch zipFetch st d).1 =
        .downloadCompleted sp rel outputDir files →
      (download_3gpp_document dlId outputDir sizeFetch zipFetch st d).2.1 =
          Function.update st dlId none ∧
      (∀ (outputDir2 : List Char) (sizeF2 : Except PyExc Nat)
          (zipF2 : Except PyExc (List ZipEntry)) (d2 : Dir),
        (download_3gpp_document dlId outputDir2 sizeF2 zipF2
            (download_3gpp_document dlId outputDir sizeFetch zipFetch st d).2.1 d2).1 =
          .invalidDownloadId dlId)) ∧
    (∀ (dlId outputDir : List Char) (sizeFetch : Except PyExc Nat)
        (zipFetch : Except PyExc (List ZipEntry)) (st : Registry) (d : Dir),
      ((download_3gpp_document dlId outputDir sizeFetch zipFetch st d).1 =
          .invalidDownloadId dlId ∨
        (∃ e, (download_3gpp_document dlId outputDir sizeFetch zipFetch st d).1 =
          .errorOccurred e)) →
      (download_3gpp_document dlId outputDir sizeFetch zipFetch st d).2.1 = st) := by
  refine ⟨?_, ?_, ?_⟩
  · intro spec release fetch timeStr st link dlId h
    unfold check_3gpp_link at h ⊢
    cases hp : parse_spec_number spec with
    | error e => simp [hp] at h
    | ok r =>
      obtain ⟨series, number, sub⟩ := r
      cases hr : rel_to_zip_suffix release with
      | error e => simp [hp, hr] at h
      | ok relSfx =>
        cases fetch with
        | fail e => simp [hp, hr] at h
        | ok hrefs =>
          cases hf : find_spec_zip_link series number relSfx hrefs with
          | none => simp [hp, hr, hf] at h
          | some zl =>
            simp only [hp, hr, hf, ToolMsg.linkFound.injEq] at h
            simp only [hp, hr, hf]
            rw [h.2.2.2]
            exact ⟨_, Function.update_same _ _ _⟩
  · intro dlId outputDir sizeFetch zipFetch st d sp rel files h
    unfold download_3gpp_document at h ⊢
    cases hs : st dlId with
    | none => simp [hs] at h
    | some info =>
      cases sizeFetch with
      | error e => simp [hs] at h
      | ok n =>
        cases zipFetch with
        | error e => simp [hs] at h
        | ok entries =>
          simp only [hs]
          refine ⟨trivial, ?_⟩
          intro outputDir2 sizeF2 zipF2 d2
          simp only [Function.update_same]
  · intro dlId outputDir sizeFetch zipFetch st d h
    unfold download_3gpp_document at h ⊢
    cases hs : st dlId with
    | none => simp only [hs]
    | some info =>
      cases sizeFetch with
      | error e => simp only [hs]
      | ok n =>
        cases zipFetch with
        | error e => simp only [hs]
        | ok entries =>
          exfalso
          simp only [hs] at h
          rcases h with h | ⟨e, h⟩
          · exact ToolMsg.noConfusion h
          · exact ToolMsg.noConfusion h

theorem claim_C10_at_most_once_witness :
    (download_3gpp_document "id1".data "out".data (.ok 0) (.ok []) stEx
        (fun _ => none)).2.1 = Function.update stEx "id1".data none ∧
    (download_3gpp_document "id1".data "out".data (.ok 0) (.ok [])
        (download_3gpp_document "id1".data "out".data (.ok 0) (.ok []) stEx
          (fun _ => none)).2.1 (fun _ => none)).1 =
      .invalidDownloadId "id1".data := by
  have h := claim_C10_at_most_once.2.1 "id1".data "out".data (.ok 0) (.ok []) stEx
    (fun _ => none) "TS 38.331".data "Rel-18".data [] (by rfl)
  exact ⟨h.1, h.2 "out".data (.ok 0) (.ok []) (fun _ => none)⟩

end ThreeGPP
